import Mathlib

/-!
Verification of the expectation-matching engine of `go-itest`
(`src/expect/expect.go` and `src/mt/expect.go`).

The engine compares dynamically typed Go values (`interface{}`) that were
produced by JSON decoding.  We embed the universe of runtime values the
two source files inspect as a tagged union `GoVal`.  Object and array
payloads are mutually inductive spines (`GoFields`, `GoElems`) so that the
comparators can be defined by structural recursion and evaluated by the
kernel.

Modelling conventions, chosen once and used throughout:
* Go `float64` is modelled by `Rat` with exact arithmetic; the engine only
  ever tests floats for equality, and the int-to-float conversions the
  source performs are modelled by the exact cast `Int → Rat`.
* `mtjson.Object` and `map[string]interface{}` (resp. `mtjson.Array` and
  `[]interface{}`) are collapsed into the single constructor `obj`
  (resp. `arr`): the source converts between them before doing anything
  else, and they carry the same data.
* A missing map entry `m[k]` yields Go's zero value `nil`, modelled by
  `GoVal.null`; decoded JSON `null` is the same value.
* Caller-supplied predicate functions cannot be stored inside an
  inductive type, so a predicate leaf carries an index into an
  environment that is passed to the dispatcher
  (`KVEnv` for `expect.CustomPredicateForKey` closures,
  `BEnv` for `mt`'s `func(interface{}) bool` predicates).
* Values of any other runtime type (structs, channels, ...) are
  represented by `other tyName` carrying their `%T` rendering.
-/

mutual

inductive GoVal where
  | null                                -- nil interface (also decoded JSON null)
  | str (s : String)                    -- string
  | flt (x : Rat)                       -- float64
  | intV (n : Int)                      -- int
  | int64V (n : Int)                    -- int64
  | boolV (b : Bool)                    -- bool
  | obj (fields : GoFields)             -- map[string]interface{} / json.Object
  | arr (elems : GoElems)               -- []interface{} / json.Array
  | ptrStr                              -- *string   (pointee never read by the dispatcher)
  | ptrFlt (x : Rat)                    -- *float64  (dereferenced by the dispatcher)
  | ptrInt                              -- *int      (pointee never read)
  | ptrInt64                            -- *int64    (pointee never read)
  | predKV (i : Nat)                    -- expect.CustomPredicateForKey closure
  | predB (i : Nat)                     -- func(interface{}) bool predicate (mt package)
  | other (tyName : String)             -- any other runtime type, with its %T name
  deriving DecidableEq

inductive GoFields where
  | nil
  | cons (k : String) (v : GoVal) (rest : GoFields)
  deriving DecidableEq

inductive GoElems where
  | nil
  | cons (v : GoVal) (rest : GoElems)
  deriving DecidableEq

end

/-- The `%T` rendering Go produces for each modelled runtime type. -/
def goTypeName : GoVal → String
  | .null => "<nil>"
  | .str _ => "string"
  | .flt _ => "float64"
  | .intV _ => "int"
  | .int64V _ => "int64"
  | .boolV _ => "bool"
  | .obj _ => "map[string]interface \x7b\x7d"
  | .arr _ => "[]interface \x7b\x7d"
  | .ptrStr => "*string"
  | .ptrFlt _ => "*float64"
  | .ptrInt => "*int"
  | .ptrInt64 => "*int64"
  | .predKV _ => "expect.CustomPredicateForKey"
  | .predB _ => "func(interface \x7b\x7d) bool"
  | .other tyName => tyName

/-- Number of entries of an object (Go `len(m)` on the map). -/
def GoFields.length : GoFields → Nat
  | .nil => 0
  | .cons _ _ rest => 1 + rest.length

/-- The keys of an object, in spine order (a determinization of Go's
map iteration order; the source sorts the keys before using them). -/
def GoFields.keys : GoFields → List String
  | .nil => []
  | .cons k _ rest => k :: rest.keys

/-- Go map indexing `m[k]`: the zero value `nil` when the key is absent. -/
def GoFields.lookup (k : String) : GoFields → GoVal
  | .nil => .null
  | .cons k' v rest => if k' = k then v else rest.lookup k

/-- View of an object spine as a list of key/value pairs. -/
def GoFields.toList : GoFields → List (String × GoVal)
  | .nil => []
  | .cons k v rest => (k, v) :: rest.toList

/-- Go `len(a)` on a slice. -/
def GoElems.length : GoElems → Nat
  | .nil => 0
  | .cons _ rest => 1 + rest.length

/-- Go slice indexing `a[i]`; `none` models the index-out-of-range panic. -/
def GoElems.get? : GoElems → Nat → Option GoVal
  | .nil, _ => none
  | .cons v _, 0 => some v
  | .cons _ rest, n + 1 => rest.get? n

/-- View of an array spine as a list. -/
def GoElems.toList : GoElems → List GoVal
  | .nil => []
  | .cons v rest => v :: rest.toList

/-!
Go's `sort.Strings` sorts byte-wise lexicographically; on UTF-8 encoded
strings that is exactly code-point lexicographic order, which we define
char-wise over `String.data` (the built-in `String` order does not reduce
in the kernel, so we spell the same order out).
-/

/-- Strict code-point lexicographic order on character lists. -/
def charsLt : List Char → List Char → Bool
  | [], [] => false
  | [], _ :: _ => true
  | _ :: _, [] => false
  | a :: as, b :: bs =>
    if a < b then true
    else if b < a then false
    else charsLt as bs

/-- Comparison `a ≤ b` in the string order Go's `sort.Strings` uses. -/
def strLe (a b : String) : Bool := !(charsLt b.data a.data)

/-- The effect of `sort.Strings`: the ascending reordering of a list. -/
def sortStrings (l : List String) : List String :=
  List.insertionSort (fun a b => strLe a b = true) l

/-- Structured rendering of the error values the two source files build.
Each constructor stands for one error-constructing expression of the
source and carries exactly the data that expression formats:
* `wrongType k e a`      — `wrongTypeError(key, expected, actual)`
* `wrongValue k e a`     — `wrongValueError(key, expected, actual)`
* `wrongFieldCount e a`  — `fmt.Errorf("expected %d fields, got %d", ...)`
* `wrongKey e a`         — `fmt.Errorf("expected key %q, got %q", ...)`
* `wrongElementCount e a`— `fmt.Errorf("expected %d elements, got %d", ...)`
* `missingHeader k`      — `fmt.Errorf("expected header %q, got nothing", ...)`
* `headerValueMismatch k e a` — `fmt.Errorf("expected header %q to contain %q, got %q", ...)`
* `unsupportedType k t`  — `fmt.Errorf("unexpected value type for field %q: %T", key, actual)`
  (note: the format cites the **actual** value's runtime type `t`)
* `predNotSat k a`       — mt: `fmt.Errorf("field %q did not satisfy predicate, got %q", ...)`
* `plain msg`            — `errors.New(msg)` / any other `fmt.Errorf` message
-/
inductive MErr where
  | wrongType (key : String) (expected actual : GoVal)
  | wrongValue (key : String) (expected actual : GoVal)
  | wrongFieldCount (expected actual : Nat)
  | wrongKey (expected actual : String)
  | wrongElementCount (expected actual : Nat)
  | missingHeader (key : String)
  | headerValueMismatch (key expected : String) (actual : List String)
  | unsupportedType (key : String) (actualType : String)
  | predNotSat (key : String) (actual : GoVal)
  | plain (msg : String)
  deriving DecidableEq

/-- Environment of `expect.CustomPredicateForKey` closures referenced by
`GoVal.predKV` indices; `some e` is the error the closure returns. -/
def KVEnv : Type := Nat → String → GoVal → Option MErr

/-- Environment of `func(interface{}) bool` predicates referenced by
`GoVal.predB` indices. -/
def BEnv : Type := Nat → GoVal → Bool

/-- A predicate environment that never fires (used to evaluate the
dispatcher on trees without predicate leaves). -/
def defaultKV : KVEnv := fun _ _ _ => none

/-- A boolean-predicate environment that always succeeds. -/
def defaultB : BEnv := fun _ _ => true

/-- The key-comparison loop of the exact-mode object check
(`for i := range expectedKeys { if expectedKeys[i] != actualKeys[i] ... }`):
the first positionally mismatching pair of two key lists.  The loop indexes
`actualKeys[i]`; at its call site the preceding field-count guard
guarantees the two lists have equal length, so the case of a shorter
second list is unreachable there. -/
def firstKeyMismatch : List String → List String → Option (String × String)
  | e :: es, a :: as => if e ≠ a then some (e, a) else firstKeyMismatch es as
  | _, _ => none

namespace expect

/-- Go `strValForKey` (src/expect/expect.go): compares an expected string to
an actual value. -/
def strValForKey (key : String) (expected : String) (actual : GoVal) : Option MErr :=
  match actual with
  | .str s => if s ≠ expected then some (.wrongValue key (.str expected) (.str s)) else none
  | _ => some (.wrongType key (.str expected) actual)

/-- Go `numValForKey` (src/expect/expect.go): compares an expected float64 to
an actual value. -/
def numValForKey (key : String) (expected : Rat) (actual : GoVal) : Option MErr :=
  match actual with
  | .flt n => if n ≠ expected then some (.wrongValue key (.flt expected) (.flt n)) else none
  | _ => some (.wrongType key (.flt expected) actual)

/-- Go `boolValForKey` (src/expect/expect.go): compares an expected bool to
an actual value. -/
def boolValForKey (key : String) (expected : Bool) (actual : GoVal) : Option MErr :=
  match actual with
  | .boolV b => if b ≠ expected then some (.wrongValue key (.boolV expected) (.boolV b)) else none
  | _ => some (.wrongType key (.boolV expected) actual)

/-!
Go `ValueForKey` (src/expect/expect.go, lines 124-192) together with
`mapValForKey` (237-276) and `arrayValForKey` (279-297).  The bodies of
the two helpers are inlined into the dispatcher's `obj`/`arr` arms and
their member loops are split off as `mapLoop`/`arrayLoop`, so that the
mutual recursion is structural over `GoVal`/`GoFields`/`GoElems` (which
keeps every definition kernel-computable).  The result type
`Option (List MErr)`: `some errs` is a normal return of the error slice,
`none` models a Go panic (the only panic source in these functions is
slice indexing `a[i]` in `arrayValForKey`'s loop, and a panic propagates
through every caller).
-/

mutual

/-- Go `ValueForKey` (src/expect/expect.go): dispatch on the runtime type of
the expected value. -/
def ValueForKey (env : KVEnv) (key : String) (expected actual : GoVal)
    (exact : Bool) : Option (List MErr) :=
  match expected with
  | .obj fields =>
    -- mapValForKey, inlined
    (match actual with
     | .obj m =>
       if exact then
         if m.length ≠ fields.length then
           some [.wrongFieldCount fields.length m.length]
         else
           match firstKeyMismatch (sortStrings fields.keys) (sortStrings m.keys) with
           | some p => some [.wrongKey p.1 p.2]
           | none => mapLoop env key fields m exact
       else mapLoop env key fields m exact
     | _ => some [.wrongType key (.obj fields) actual])
  | .arr elems =>
    -- arrayValForKey, inlined
    (match actual with
     | .arr a =>
       if exact && a.length ≠ elems.length then
         some [.wrongElementCount elems.length a.length]
       else arrayLoop env key 0 elems a exact
     | _ => some [.wrongType key (.arr elems) actual])
  | .str s =>
    (match strValForKey key s actual with
     | some e => some [e]
     | none => some [])
  | .ptrStr => some [.plain "bar"]
  | .flt x =>
    (match numValForKey key x actual with
     | some e => some [e]
     | none => some [])
  | .ptrFlt x =>
    -- case *float64: the pointee is dereferenced and compared
    (match numValForKey key x actual with
     | some e => some [e]
     | none => some [])
  | .intV n =>
    -- case int, int64: converted via float64(ev); the conversion is modelled exactly
    (match numValForKey key (n : Rat) actual with
     | some e => some [e]
     | none => some [])
  | .int64V n =>
    (match numValForKey key (n : Rat) actual with
     | some e => some [e]
     | none => some [])
  | .ptrInt => some [.plain "foo"]
  | .ptrInt64 => some [.plain "foo"]
  | .boolV b =>
    (match boolValForKey key b actual with
     | some e => some [e]
     | none => some [])
  | .predKV i =>
    (match env i key actual with
     | some e => some [e]
     | none => some [])
  | _ => some [.unsupportedType key (goTypeName actual)]

/-- The member loop of `mapValForKey`
(`for k, v := range expected { ... ValueForKey(key+"."+k, v, m[k], exact) ... }`);
the spine order of `fields` determinizes Go's map iteration order. -/
def mapLoop (env : KVEnv) (key : String) (fields : GoFields) (m : GoFields)
    (exact : Bool) : Option (List MErr) :=
  match fields with
  | .nil => some []
  | .cons k v rest =>
    match ValueForKey env (key ++ "." ++ k) v (m.lookup k) exact with
    | none => none
    | some errs =>
      match mapLoop env key rest m exact with
      | none => none
      | some rerrs => some (errs ++ rerrs)

/-- The member loop of `arrayValForKey`
(`for i, v := range expected { ... ValueForKey(fmt.Sprintf("%s[%d]", key, i), v, a[i], exact) ... }`);
the unguarded indexing `a[i]` panics (`none`) when `i` is out of range. -/
def arrayLoop (env : KVEnv) (key : String) (i : Nat) (elems : GoElems)
    (a : GoElems) (exact : Bool) : Option (List MErr) :=
  match elems with
  | .nil => some []
  | .cons v rest =>
    match a.get? i with
    | none => none
    | some av =>
      match ValueForKey env (key ++ "[" ++ toString i ++ "]") v av exact with
      | none => none
      | some errs =>
        match arrayLoop env key (i + 1) rest a exact with
        | none => none
        | some rerrs => some (errs ++ rerrs)

end

end expect

namespace mt

/-- Go `expectString` (src/mt/expect.go). -/
def expectString (key : String) (expected : String) (actual : GoVal) : Option MErr :=
  match actual with
  | .str s => if s ≠ expected then some (.wrongValue key (.str expected) (.str s)) else none
  | _ => some (.wrongType key (.str expected) actual)

/-- Go `expectNumber` (src/mt/expect.go). -/
def expectNumber (key : String) (expected : Rat) (actual : GoVal) : Option MErr :=
  match actual with
  | .flt n => if n ≠ expected then some (.wrongValue key (.flt expected) (.flt n)) else none
  | _ => some (.wrongType key (.flt expected) actual)

/-- Go `expectBool` (src/mt/expect.go). -/
def expectBool (key : String) (expected : Bool) (actual : GoVal) : Option MErr :=
  match actual with
  | .boolV b => if b ≠ expected then some (.wrongValue key (.boolV expected) (.boolV b)) else none
  | _ => some (.wrongType key (.boolV expected) actual)

/-!
Go `expect` (src/mt/expect.go, lines 47-103) together with `expectObject`
(144-183) and `expectArray` (185-203), embedded exactly like the
`expect`-package dispatcher (helpers inlined, loops split off, `none`
models the indexing panic).  The differences from `expect.ValueForKey`:
there are no pointer cases (pointer-typed expected values fall through to
the default arm), and the predicate case takes a `func(interface{}) bool`
instead of a `CustomPredicateForKey`.
-/

mutual

/-- Go `expect` (src/mt/expect.go): dispatch on the runtime type of the
expected value. -/
def expect (env : BEnv) (key : String) (expected actual : GoVal)
    (exact : Bool) : Option (List MErr) :=
  match expected with
  | .obj fields =>
    -- expectObject, inlined
    (match actual with
     | .obj m =>
       if exact then
         if m.length ≠ fields.length then
           some [.wrongFieldCount fields.length m.length]
         else
           match firstKeyMismatch (sortStrings fields.keys) (sortStrings m.keys) with
           | some p => some [.wrongKey p.1 p.2]
           | none => objectLoop env key fields m exact
       else objectLoop env key fields m exact
     | _ => some [.wrongType key (.obj fields) actual])
  | .arr elems =>
    -- expectArray, inlined
    (match actual with
     | .arr a =>
       if exact && a.length ≠ elems.length then
         some [.wrongElementCount elems.length a.length]
       else arrayLoop env key 0 elems a exact
     | _ => some [.wrongType key (.arr elems) actual])
  | .str s =>
    (match expectString key s actual with
     | some e => some [e]
     | none => some [])
  | .flt x =>
    (match expectNumber key x actual with
     | some e => some [e]
     | none => some [])
  | .intV n =>
    (match expectNumber key (n : Rat) actual with
     | some e => some [e]
     | none => some [])
  | .int64V n =>
    (match expectNumber key (n : Rat) actual with
     | some e => some [e]
     | none => some [])
  | .boolV b =>
    (match expectBool key b actual with
     | some e => some [e]
     | none => some [])
  | .predB i => if env i actual then some [] else some [.predNotSat key actual]
  | _ => some [.unsupportedType key (goTypeName actual)]

/-- The member loop of `expectObject`. -/
def objectLoop (env : BEnv) (key : String) (fields : GoFields) (m : GoFields)
    (exact : Bool) : Option (List MErr) :=
  match fields with
  | .nil => some []
  | .cons k v rest =>
    match expect env (key ++ "." ++ k) v (m.lookup k) exact with
    | none => none
    | some errs =>
      match objectLoop env key rest m exact with
      | none => none
      | some rerrs => some (errs ++ rerrs)

/-- The member loop of `expectArray`; `a[i]` panics (`none`) when `i` is
out of range. -/
def arrayLoop (env : BEnv) (key : String) (i : Nat) (elems : GoElems)
    (a : GoElems) (exact : Bool) : Option (List MErr) :=
  match elems with
  | .nil => some []
  | .cons v rest =>
    match a.get? i with
    | none => none
    | some av =>
      match expect env (key ++ "[" ++ toString i ++ "]") v av exact with
      | none => none
      | some errs =>
        match arrayLoop env key (i + 1) rest a exact with
        | none => none
        | some rerrs => some (errs ++ rerrs)

end

end mt

/-!
Header matching.  `http.Header` is a `map[string][]string`; we model it as
an association list (fixing one iteration order for the `range` loop) whose
values are the string slices.  `expect.Headers` mutates its inputs:
`sort.Strings` reorders the two value slices **in place**, through the
slice headers shared with the maps.  The embedding therefore returns,
besides the error slice, the post-call contents of both maps.
-/

/-- A Go `http.Header`: header name to slice of values. -/
abbrev HMap : Type := List (String × List String)

/-- Go map lookup `actual[key]` on a header map (exact, case-sensitive
string equality on the key). -/
def lookupVals (k : String) : HMap → Option (List String)
  | ([] : List (String × List String)) => none
  | p :: rest => if p.1 = k then some p.2 else lookupVals k rest

/-- In-place replacement of the slice stored under key `k` (the effect of
sorting that slice through its header). -/
def updateVals (k : String) (vs : List String) : HMap → HMap
  | ([] : List (String × List String)) => []
  | p :: rest => if p.1 = k then (p.1, vs) :: rest else p :: updateVals k vs rest

/-- The inner `found` loop of `Headers`: scan the actual value slice for
an exact match of one expected value. -/
def scanForVal (ev : String) : List String → Bool
  | [] => false
  | av :: rest => if av = ev then true else scanForVal ev rest

/-- The per-value loop of `Headers`: every expected value is checked
independently against the full actual slice (matched values are not
consumed). -/
def valueErrs (key : String) (evs avs : List String) : List MErr :=
  match evs with
  | [] => []
  | ev :: rest =>
    if scanForVal ev avs then valueErrs key rest avs
    else .headerValueMismatch key ev avs :: valueErrs key rest avs

namespace expect

/-- Go `Headers` (src/expect/expect.go, lines 85-113).  Returns
`(errs, expected', actual')` where `expected'` and `actual'` are the two
maps as the caller observes them after the call (the in-place
`sort.Strings` of both value slices included).  An expected name that is
absent from `actual` is reported missing and skipped **before** the
sorts, so its slice stays untouched. -/
def Headers : HMap → HMap → List MErr × HMap × HMap
  | ([] : List (String × List String)), actual => ([], [], actual)
  | (k, evs) :: rest, actual =>
    match lookupVals k actual with
    | none =>
      let r := Headers rest actual
      (.missingHeader k :: r.1, (k, evs) :: r.2.1, r.2.2)
    | some avs =>
      let evs' := sortStrings evs
      let avs' := sortStrings avs
      let errs := valueErrs k evs' avs'
      let r := Headers rest (updateVals k avs' actual)
      (errs ++ r.1, (k, evs') :: r.2.1, r.2.2)

/-- Go `Status` (src/expect/expect.go). -/
def Status (expected actual : Int) : Option MErr :=
  if expected ≠ actual then some (.plain ("expected status " ++ toString expected ++ ", got " ++ toString actual)) else none

/-!
The `Bind` adapter (src/expect/expect.go, lines 20-71).  `Bind(target)`
closes over a pointer to caller-owned storage and type-switches on the
pointer's type; we model the storage as a `BindTarget` value holding the
current pointee, and the returned `CustomPredicateForKey` as a function
from that state to (optional error, new state).  The four scalar pointer
cases of the switch are modelled; the `default` branch (a structural copy
of composite values via `json.Marshal`/`json.Unmarshal`) is outside the
modelled fragment, as it depends on the JSON encoder.
-/

/-- The caller-owned storage a `Bind` target points at. -/
inductive BindTarget where
  | tstr (cur : String)    -- *string
  | tflt (cur : Rat)       -- *float64
  | tint64 (cur : Int)     -- *int64
  | tbool (cur : Bool)     -- *bool
  deriving DecidableEq

/-- Go `Bind` (src/expect/expect.go): one invocation of the closure
`Bind(target)` returns, on the given actual value.  Yields the error the
closure returns (if any) and the contents of the target storage after the
call. -/
def Bind : BindTarget → String → GoVal → Option MErr × BindTarget
  | .tstr cur, _key, actual =>
    (match actual with
     | .str s => (none, .tstr s)
     | _ => (some (.plain ("expected to bind string, found " ++ goTypeName actual)), .tstr cur))
  | .tflt cur, _key, actual =>
    (match actual with
     | .flt x => (none, .tflt x)
     | _ => (some (.plain ("expected to bind float64, found " ++ goTypeName actual)), .tflt cur))
  | .tint64 cur, _key, actual =>
    (match actual with
     | .int64V n => (none, .tint64 n)
     | _ => (some (.plain ("expected to bind int64, found " ++ goTypeName actual)), .tint64 cur))
  | .tbool cur, _key, actual =>
    (match actual with
     | .boolV b => (none, .tbool b)
     | _ => (some (.plain ("expected to bind bool, found " ++ goTypeName actual)), .tbool cur))

/-- Go `failedPredicateError` (src/expect/expect.go). -/
def failedPredicateError (key : String) (msg : String) : MErr :=
  .plain (if key ≠ "" then key ++ ": predicate failed: " ++ msg else "predicate failed: " ++ msg)

/-- Go `Predicate` (src/expect/expect.go): wraps a value-only predicate
(`fn`, returning an optional error message) as a key/value predicate. -/
def Predicate (fn : GoVal → Option String) (key : String) (actual : GoVal) : Option MErr :=
  (fn actual).map (failedPredicateError key)

end expect

namespace mt

/-- Go `expectHeaders` (src/mt/expect.go, lines 205-233) is textually
identical to `expect.Headers`; the embedding is shared. -/
def expectHeaders : HMap → HMap → List MErr × HMap × HMap := expect.Headers

/-- Go `expectStatus` (src/mt/expect.go) is textually identical to
`expect.Status`. -/
def expectStatus : Int → Int → Option MErr := expect.Status

end mt

/-!
The fragment of `GoVal` on which the two dispatchers are claimed to be
duplicates: expected trees built only from the JSON shapes (objects,
arrays, strings, ints, floats, bools) — no predicates, no pointer-typed
leaves, no other types.
-/

mutual

/-- The expected tree uses only JSON shapes. -/
def jsonOnly : GoVal → Bool
  | .str _ => true
  | .flt _ => true
  | .intV _ => true
  | .int64V _ => true
  | .boolV _ => true
  | .obj fs => jsonOnlyF fs
  | .arr es => jsonOnlyE es
  | _ => false

/-- All values of an object spine use only JSON shapes. -/
def jsonOnlyF : GoFields → Bool
  | .nil => true
  | .cons _ v rest => jsonOnly v && jsonOnlyF rest

/-- All values of an array spine use only JSON shapes. -/
def jsonOnlyE : GoElems → Bool
  | .nil => true
  | .cons v rest => jsonOnly v && jsonOnlyE rest

end

/-!
Mutual induction for the dispatcher-equivalence claim, as three mutually
recursive proof terms over the value/fields/elems spines.
-/

mutual

/-- On JSON-only expected trees `expect.ValueForKey` and `mt.expect`
coincide, for every actual value, path, mode, and environments. -/
def agreeV : (e : GoVal) → jsonOnly e = true →
    ∀ (envKV : KVEnv) (envB : BEnv) (key : String) (actual : GoVal) (exact : Bool),
      expect.ValueForKey envKV key e actual exact = mt.expect envB key e actual exact
  | .str _s, _h => fun _ _ _ actual _ => by cases actual <;> rfl
  | .flt _x, _h => fun _ _ _ actual _ => by cases actual <;> rfl
  | .intV _n, _h => fun _ _ _ actual _ => by cases actual <;> rfl
  | .int64V _n, _h => fun _ _ _ actual _ => by cases actual <;> rfl
  | .boolV _b, _h => fun _ _ _ actual _ => by cases actual <;> rfl
  | .obj fs, h => fun envKV envB key actual exact => by
      have hfs : jsonOnlyF fs = true := by simpa [jsonOnly] using h
      cases actual
      case obj m =>
        have hf := agreeF fs hfs envKV envB key m exact
        simp only [expect.ValueForKey, mt.expect]
        cases exact with
        | false => simpa using hf
        | true =>
          simp only [if_true]
          split
          · rfl
          · split
            · rfl
            · exact hf
      all_goals rfl
  | .arr es, h => fun envKV envB key actual exact => by
      have hes : jsonOnlyE es = true := by simpa [jsonOnly] using h
      cases actual
      case arr a =>
        have he := agreeE es hes envKV envB key 0 a exact
        simp only [expect.ValueForKey, mt.expect]
        split
        · rfl
        · exact he
      all_goals rfl
  | .null, h => by simp [jsonOnly] at h
  | .ptrStr, h => by simp [jsonOnly] at h
  | .ptrFlt _x, h => by simp [jsonOnly] at h
  | .ptrInt, h => by simp [jsonOnly] at h
  | .ptrInt64, h => by simp [jsonOnly] at h
  | .predKV _i, h => by simp [jsonOnly] at h
  | .predB _i, h => by simp [jsonOnly] at h
  | .other _t, h => by simp [jsonOnly] at h

/-- On JSON-only field spines the two object member loops coincide. -/
def agreeF : (fs : GoFields) → jsonOnlyF fs = true →
    ∀ (envKV : KVEnv) (envB : BEnv) (key : String) (m : GoFields) (exact : Bool),
      expect.mapLoop envKV key fs m exact = mt.objectLoop envB key fs m exact
  | .nil, _h => fun _ _ _ _ _ => rfl
  | .cons k v rest, h => fun envKV envB key m exact => by
      have h1 : jsonOnly v = true := by
        have := h; simp [jsonOnlyF, Bool.and_eq_true] at this; exact this.1
      have h2 : jsonOnlyF rest = true := by
        have := h; simp [jsonOnlyF, Bool.and_eq_true] at this; exact this.2
      have hv := agreeV v h1 envKV envB (key ++ "." ++ k) (m.lookup k) exact
      have hr := agreeF rest h2 envKV envB key m exact
      simp only [expect.mapLoop, mt.objectLoop, hv, hr]

/-- On JSON-only element spines the two array member loops coincide. -/
def agreeE : (es : GoElems) → jsonOnlyE es = true →
    ∀ (envKV : KVEnv) (envB : BEnv) (key : String) (i : Nat) (a : GoElems) (exact : Bool),
      expect.arrayLoop envKV key i es a exact = mt.arrayLoop envB key i es a exact
  | .nil, _h => fun _ _ _ _ _ _ => rfl
  | .cons v rest, h => fun envKV envB key i a exact => by
      have h1 : jsonOnly v = true := by
        have := h; simp [jsonOnlyE, Bool.and_eq_true] at this; exact this.1
      have h2 : jsonOnlyE rest = true := by
        have := h; simp [jsonOnlyE, Bool.and_eq_true] at this; exact this.2
      have hr := agreeE rest h2 envKV envB key (i + 1) a exact
      cases ha : a.get? i with
      | none => simp only [expect.arrayLoop, mt.arrayLoop, ha]
      | some av =>
        have hv := agreeV v h1 envKV envB (key ++ "[" ++ toString i ++ "]") av exact
        simp only [expect.arrayLoop, mt.arrayLoop, ha, hv, hr]

end

/-!
Claim theorems.
-/

/-- C1: the spec says that in Subset mode, an expected array strictly
longer than the actual one yields a missing-element error per out-of-range
index "and returns normally; it never panics on such input".  The code
instead indexes `a[i]` without a bounds check, so both engines panic
(result `none`) on any such input — evaluated here at expected `[1.0, 2.0]`
against actual `[1.0]` in subset mode.  The spec is clearly the intent
(degrade to an error value) and the missing bounds check a slip: code bug. -/
theorem c1_subset_longer_expected_panics :
    expect.ValueForKey defaultKV "" (.arr (.cons (.flt 1) (.cons (.flt 2) .nil)))
      (.arr (.cons (.flt 1) .nil)) false = none ∧
    mt.expect defaultB "" (.arr (.cons (.flt 1) (.cons (.flt 2) .nil)))
      (.arr (.cons (.flt 1) .nil)) false = none := by decide

/-- C5: in Exact mode on an object-shaped actual value the object matcher
(`mapValForKey`, inlined into the `obj` arm of `expect.ValueForKey`)
first compares field counts, returning exactly one `wrongFieldCount`
error carrying both counts and recursing into nothing; with equal counts
it compares the sorted key lists positionally, returning exactly one
`wrongKey` error at the first mismatch and recursing into nothing; only
when both checks pass does it run the per-key recursion `mapLoop`. -/
theorem c5_exact_object_guards :
    (∀ (env : KVEnv) (key : String) (fields m : GoFields),
      m.length ≠ fields.length →
      expect.ValueForKey env key (.obj fields) (.obj m) true
        = some [.wrongFieldCount fields.length m.length]) ∧
    (∀ (env : KVEnv) (key : String) (fields m : GoFields) (ek ak : String),
      m.length = fields.length →
      firstKeyMismatch (sortStrings fields.keys) (sortStrings m.keys) = some (ek, ak) →
      expect.ValueForKey env key (.obj fields) (.obj m) true = some [.wrongKey ek ak]) ∧
    (∀ (env : KVEnv) (key : String) (fields m : GoFields),
      m.length = fields.length →
      firstKeyMismatch (sortStrings fields.keys) (sortStrings m.keys) = none →
      expect.ValueForKey env key (.obj fields) (.obj m) true
        = expect.mapLoop env key fields m true) := by
  refine ⟨fun env key fields m hne => ?_, fun env key fields m ek ak hlen hk => ?_,
    fun env key fields m hlen hk => ?_⟩
  · simp [expect.ValueForKey, hne]
  · simp [expect.ValueForKey, hlen, hk]
  · simp [expect.ValueForKey, hlen, hk]

/-- C5 witness: the three guard outcomes at concrete inputs. -/
theorem c5_exact_object_guards_witness :
    expect.ValueForKey defaultKV "k" (.obj (.cons "a" (.flt 1) .nil)) (.obj .nil) true
      = some [.wrongFieldCount 1 0] ∧
    expect.ValueForKey defaultKV "k" (.obj (.cons "a" (.flt 1) .nil))
      (.obj (.cons "b" (.flt 1) .nil)) true = some [.wrongKey "a" "b"] ∧
    expect.ValueForKey defaultKV "k" (.obj (.cons "a" (.flt 1) .nil))
      (.obj (.cons "a" (.flt 2) .nil)) true
      = expect.mapLoop defaultKV "k" (.cons "a" (.flt 1) .nil) (.cons "a" (.flt 2) .nil) true :=
  ⟨c5_exact_object_guards.1 defaultKV "k" _ _ (by decide),
   c5_exact_object_guards.2.1 defaultKV "k" _ _ "a" "b" (by decide) (by decide),
   c5_exact_object_guards.2.2 defaultKV "k" _ _ (by decide) (by decide)⟩

/-- C7: both dispatchers convert an integer-typed expected value to the
float domain (`float64(ev)`, modelled by the exact cast `Int → Rat`)
before comparing, so an int-typed leaf behaves exactly like the
corresponding float-typed leaf; in particular expected integer 43 matches
actual float 43.0 in Exact mode with no error. -/
theorem c7_int_coerced_to_float_domain :
    (∀ (env : KVEnv) (key : String) (n : Int) (actual : GoVal) (exact : Bool),
      expect.ValueForKey env key (.intV n) actual exact
        = expect.ValueForKey env key (.flt (n : Rat)) actual exact) ∧
    (∀ (env : KVEnv) (key : String) (n : Int) (actual : GoVal) (exact : Bool),
      expect.ValueForKey env key (.int64V n) actual exact
        = expect.ValueForKey env key (.flt (n : Rat)) actual exact) ∧
    (∀ (env : BEnv) (key : String) (n : Int) (actual : GoVal) (exact : Bool),
      mt.expect env key (.intV n) actual exact
        = mt.expect env key (.flt (n : Rat)) actual exact) ∧
    (∀ (env : BEnv) (key : String) (n : Int) (actual : GoVal) (exact : Bool),
      mt.expect env key (.int64V n) actual exact
        = mt.expect env key (.flt (n : Rat)) actual exact) ∧
    expect.ValueForKey defaultKV "" (.intV 43) (.flt 43) true = some [] ∧
    mt.expect defaultB "" (.intV 43) (.flt 43) true = some [] :=
  ⟨fun _ _ _ _ _ => rfl, fun _ _ _ _ _ => rfl, fun _ _ _ _ _ => rfl, fun _ _ _ _ _ => rfl,
   by decide, by decide⟩

/-- C8: the `Bind` closure for a `*string` target copies an actual string
value into the target and returns no error; on an actual object value it
returns the bind type-mismatch error and leaves the target unchanged. -/
theorem c8_bind_string_target :
    (∀ (cur key s : String),
      expect.Bind (.tstr cur) key (.str s) = (none, .tstr s)) ∧
    (∀ (cur key : String) (fs : GoFields),
      expect.Bind (.tstr cur) key (.obj fs)
        = (some (.plain ("expected to bind string, found " ++ goTypeName (.obj fs))),
           .tstr cur)) :=
  ⟨fun _ _ _ => rfl, fun _ _ _ => rfl⟩

/-- C9 counterexample: the claim says pointer-typed expected values such
as `*string` fall into the unrecognized bucket and yield a single
`UnsupportedType` error citing the actual value's runtime type.  The
dispatcher instead has a dedicated `*string` case returning the
placeholder error `"bar"`, which is not that `UnsupportedType` error. -/
theorem c9_pointer_counterexample :
    expect.ValueForKey defaultKV "" .ptrStr (.str "x") true = some [.plain "bar"] ∧
    expect.ValueForKey defaultKV "" .ptrStr (.str "x") true
      ≠ some [.unsupportedType "" (goTypeName (.str "x"))] := by decide

/-- C9 amended: expected values that reach the `default` arm of
`expect.ValueForKey` (unrecognized runtime types, including nil and
`mt`-style boolean predicates) yield exactly one `UnsupportedType` error
citing the **actual** value's runtime type; but the pointer types have
dedicated cases: `*string` returns the single placeholder error `"bar"`,
`*int` and `*int64` return the single placeholder error `"foo"` (none of
which cite a type), and `*float64` is dereferenced and compared as a
number. -/
theorem c9_unsupported_type_amended :
    (∀ (env : KVEnv) (key ty : String) (actual : GoVal) (exact : Bool),
      expect.ValueForKey env key (.other ty) actual exact
        = some [.unsupportedType key (goTypeName actual)]) ∧
    (∀ (env : KVEnv) (key : String) (actual : GoVal) (exact : Bool),
      expect.ValueForKey env key .null actual exact
        = some [.unsupportedType key (goTypeName actual)]) ∧
    (∀ (env : KVEnv) (key : String) (i : Nat) (actual : GoVal) (exact : Bool),
      expect.ValueForKey env key (.predB i) actual exact
        = some [.unsupportedType key (goTypeName actual)]) ∧
    (∀ (env : KVEnv) (key : String) (actual : GoVal) (exact : Bool),
      expect.ValueForKey env key .ptrStr actual exact = some [.plain "bar"]) ∧
    (∀ (env : KVEnv) (key : String) (actual : GoVal) (exact : Bool),
      expect.ValueForKey env key .ptrInt actual exact = some [.plain "foo"]) ∧
    (∀ (env : KVEnv) (key : String) (actual : GoVal) (exact : Bool),
      expect.ValueForKey env key .ptrInt64 actual exact = some [.plain "foo"]) ∧
    (∀ (env : KVEnv) (key : String) (x : Rat) (actual : GoVal) (exact : Bool),
      expect.ValueForKey env key (.ptrFlt x) actual exact
        = expect.ValueForKey env key (.flt x) actual exact) :=
  ⟨fun _ _ _ _ _ => rfl, fun _ _ _ _ => rfl, fun _ _ _ _ _ => rfl, fun _ _ _ _ => rfl,
   fun _ _ _ _ => rfl, fun _ _ _ _ => rfl, fun _ _ _ _ _ => rfl⟩

/-- C10: on every expected tree built only from JSON shapes (no
predicates, no pointer-typed leaves), the two near-duplicate comparators
`expect.ValueForKey` and `mt.expect` return equal error lists for every
path, actual value, match mode, and predicate environments. -/
theorem c10_dispatchers_agree (e : GoVal) (h : jsonOnly e = true) :
    ∀ (envKV : KVEnv) (envB : BEnv) (key : String) (actual : GoVal) (exact : Bool),
      expect.ValueForKey envKV key e actual exact = mt.expect envB key e actual exact :=
  agreeV e h

/-- C10 witness: agreement at a concrete JSON-only tree and actual value. -/
theorem c10_dispatchers_agree_witness :
    jsonOnly (.obj (.cons "a" (.arr (.cons (.intV 1) .nil)) .nil)) = true ∧
    expect.ValueForKey defaultKV "" (.obj (.cons "a" (.arr (.cons (.intV 1) .nil)) .nil))
      (.obj (.cons "a" (.str "x") .nil)) true
      = mt.expect defaultB "" (.obj (.cons "a" (.arr (.cons (.intV 1) .nil)) .nil))
        (.obj (.cons "a" (.str "x") .nil)) true :=
  ⟨by decide, c10_dispatchers_agree _ (by decide) defaultKV defaultB "" _ true⟩

/-- Indexing within bounds succeeds (no panic). -/
theorem GoElems.get?_isSome_of_lt :
    ∀ (n : Nat) (a : GoElems) (i : Nat), a.length ≤ n → i < a.length →
      ∃ av, a.get? i = some av := by
  intro n
  induction n with
  | zero =>
    intro a i hle hlt
    cases a with
    | nil => simp [GoElems.length] at hlt
    | cons v rest => simp [GoElems.length] at hle
  | succ n ih =>
    intro a i hle hlt
    cases a with
    | nil => simp [GoElems.length] at hlt
    | cons v rest =>
      cases i with
      | zero => exact ⟨v, rfl⟩
      | succ j =>
        have : j < rest.length := by simp [GoElems.length] at hlt; omega
        have hle' : rest.length ≤ n := by simp [GoElems.length] at hle; omega
        exact ih rest j hle' this

/-- The object member loop, when every member comparison returns
normally, returns exactly the concatenation of the members' error
lists. -/
theorem mapLoop_eq_join_aux (env : KVEnv) (key : String) (m : GoFields) (exact : Bool) :
    ∀ (n : Nat) (fields : GoFields), fields.length ≤ n →
    (∀ p ∈ fields.toList,
      (expect.ValueForKey env (key ++ "." ++ p.1) p.2 (m.lookup p.1) exact).isSome = true) →
    expect.mapLoop env key fields m exact
      = some ((fields.toList.map
          (fun p => (expect.ValueForKey env (key ++ "." ++ p.1) p.2 (m.lookup p.1) exact).getD [])).flatten) := by
  intro n
  induction n with
  | zero =>
    intro fields hle _hmem
    cases fields with
    | nil => simp [expect.mapLoop, GoFields.toList]
    | cons k v rest => simp [GoFields.length] at hle
  | succ n ih =>
    intro fields hle hmem
    cases fields with
    | nil => simp [expect.mapLoop, GoFields.toList]
    | cons k v rest =>
      have hv : (expect.ValueForKey env (key ++ "." ++ k) v (m.lookup k) exact).isSome = true :=
        hmem (k, v) (by simp [GoFields.toList])
      obtain ⟨errs, herrs⟩ := Option.isSome_iff_exists.mp hv
      have hle' : rest.length ≤ n := by simp [GoFields.length] at hle; omega
      have hrest := ih rest hle' (fun p hp => hmem p (by simp [GoFields.toList]; exact Or.inr hp))
      simp [expect.mapLoop, GoFields.toList, herrs, hrest]

/-- The array member loop, when every index is in bounds and every member
comparison returns normally, returns exactly the concatenation of the
members' error lists. -/
theorem arrayLoop_eq_join_aux (env : KVEnv) (key : String) (a : GoElems) (exact : Bool) :
    ∀ (n : Nat) (elems : GoElems) (i : Nat), elems.length ≤ n →
    i + elems.length ≤ a.length →
    (∀ j, j < elems.length →
      (expect.ValueForKey env (key ++ "[" ++ toString (i + j) ++ "]")
        (elems.toList.getD j .null) ((a.get? (i + j)).getD .null) exact).isSome = true) →
    expect.arrayLoop env key i elems a exact
      = some (((List.range elems.length).map
          (fun j => (expect.ValueForKey env (key ++ "[" ++ toString (i + j) ++ "]")
            (elems.toList.getD j .null) ((a.get? (i + j)).getD .null) exact).getD [])).flatten) := by
  intro n
  induction n with
  | zero =>
    intro elems i hle _hbnd _hmem
    cases elems with
    | nil => simp [expect.arrayLoop, GoElems.length]
    | cons v rest => simp [GoElems.length] at hle
  | succ n ih =>
    intro elems i hle hbnd hmem
    cases elems with
    | nil => simp [expect.arrayLoop, GoElems.length]
    | cons v rest =>
      have hlen : GoElems.length (.cons v rest) = 1 + rest.length := rfl
      have hi : i < a.length := by simp [GoElems.length] at hbnd; omega
      obtain ⟨av, hav⟩ := GoElems.get?_isSome_of_lt a.length a i (le_refl _) hi
      have hv0 : (expect.ValueForKey env (key ++ "[" ++ toString i ++ "]") v av exact).isSome = true := by
        have := hmem 0 (by simp [GoElems.length])
        simpa [GoElems.toList, hav] using this
      obtain ⟨errs, herrs⟩ := Option.isSome_iff_exists.mp hv0
      have hle' : rest.length ≤ n := by simp [GoElems.length] at hle; omega
      have hbnd' : (i + 1) + rest.length ≤ a.length := by simp [GoElems.length] at hbnd; omega
      have hmem' : ∀ j, j < rest.length →
          (expect.ValueForKey env (key ++ "[" ++ toString ((i + 1) + j) ++ "]")
            (rest.toList.getD j .null) ((a.get? ((i + 1) + j)).getD .null) exact).isSome = true := by
        intro j hj
        have := hmem (j + 1) (by simp [GoElems.length]; omega)
        rw [show i + (j + 1) = (i + 1) + j from by omega] at this
        simpa [GoElems.toList] using this
      have hrest := ih rest (i + 1) hle' hbnd' hmem'
      rw [show GoElems.length (GoElems.cons v rest) = rest.length + 1 from by
        simp [GoElems.length, Nat.add_comm], List.range_succ_eq_map]
      simp only [expect.arrayLoop, hav, herrs, hrest, List.map_cons, List.map_map,
        List.flatten_cons, Nat.add_zero, GoElems.toList, List.getD_cons_zero, Option.getD_some]
      congr 3
      refine List.map_congr_left (fun j _hj => ?_)
      simp only [Function.comp_apply, List.getD_cons_succ]
      rw [show i + 1 + j = i + (j + 1) from by omega]

/-- C6 counterexample: the claim says a comparison that reaches
per-member recursion always visits every expected member and returns the
concatenation of all members' errors.  For an expected array longer than
the actual array in Subset mode the recursion IS reached but the loop
panics at the first out-of-range index (`a[1]`), returning no error list
at all — in particular not the concatenation of per-member results the
claim predicts. -/
theorem c6_short_circuit_counterexample :
    expect.ValueForKey defaultKV ""
      (.arr (.cons (.str "x") (.cons (.str "y") (.cons (.str "z") .nil))))
      (.arr (.cons (.str "x") .nil)) false = none ∧
    (none : Option (List MErr))
      ≠ some [MErr.wrongType "[1]" (.str "y") .null, MErr.wrongType "[2]" (.str "z") .null] := by
  decide

/-- C6 amended: provided every member comparison returns normally (no
index-out-of-range panic anywhere beneath — for arrays this requires
every expected index to be within the actual array), the member loops
visit every expected field (resp. index) and return exactly the
concatenation of all members' error lists; one member's errors never
prevent the remaining members from being compared.  When a panic occurs
the whole comparison aborts instead. -/
theorem c6_member_concat_amended :
    (∀ (env : KVEnv) (key : String) (fields m : GoFields) (exact : Bool),
      (∀ p ∈ fields.toList,
        (expect.ValueForKey env (key ++ "." ++ p.1) p.2 (m.lookup p.1) exact).isSome = true) →
      expect.mapLoop env key fields m exact
        = some ((fields.toList.map
            (fun p => (expect.ValueForKey env (key ++ "." ++ p.1) p.2 (m.lookup p.1) exact).getD [])).flatten)) ∧
    (∀ (env : KVEnv) (key : String) (elems a : GoElems) (exact : Bool),
      elems.length ≤ a.length →
      (∀ j, j < elems.length →
        (expect.ValueForKey env (key ++ "[" ++ toString j ++ "]")
          (elems.toList.getD j .null) ((a.get? j).getD .null) exact).isSome = true) →
      expect.arrayLoop env key 0 elems a exact
        = some (((List.range elems.length).map
            (fun j => (expect.ValueForKey env (key ++ "[" ++ toString j ++ "]")
              (elems.toList.getD j .null) ((a.get? j).getD .null) exact).getD [])).flatten)) := by
  constructor
  · intro env key fields m exact hmem
    exact mapLoop_eq_join_aux env key m exact fields.length fields (le_refl _) hmem
  · intro env key elems a exact hbnd hmem
    have h := arrayLoop_eq_join_aux env key a exact elems.length elems 0 (le_refl _)
      (by omega) (fun j hj => by simpa [Nat.zero_add] using hmem j hj)
    simpa [Nat.zero_add] using h

/-- C6 witness: both loops at concrete inputs with a failing first member
and a succeeding second member. -/
theorem c6_member_concat_amended_witness :
    expect.mapLoop defaultKV "" (.cons "a" (.flt 1) (.cons "b" (.flt 2) .nil))
      (.cons "a" (.flt 3) .nil) false
      = some (((GoFields.cons "a" (.flt 1) (.cons "b" (.flt 2) .nil)).toList.map
          (fun p => (expect.ValueForKey defaultKV ("" ++ "." ++ p.1) p.2
            ((GoFields.cons "a" (.flt 3) .nil).lookup p.1) false).getD [])).flatten) ∧
    expect.arrayLoop defaultKV "" 0 (.cons (.flt 1) .nil)
      (.cons (.flt 2) (.cons (.flt 3) .nil)) false
      = some (((List.range (GoElems.cons (.flt 1) .nil).length).map
          (fun j => (expect.ValueForKey defaultKV ("" ++ "[" ++ toString j ++ "]")
            ((GoElems.cons (.flt 1) .nil).toList.getD j .null)
            (((GoElems.cons (.flt 2) (.cons (.flt 3) .nil)).get? j).getD .null) false).getD [])).flatten) :=
  ⟨c6_member_concat_amended.1 defaultKV "" _ _ false (by decide),
   c6_member_concat_amended.2 defaultKV "" _ _ false (by decide) (by decide)⟩

/-- The inner scan loop finds a value exactly when it is in the list. -/
theorem scanForVal_true_iff (ev : String) : ∀ l : List String, scanForVal ev l = true ↔ ev ∈ l := by
  intro l
  induction l with
  | nil => simp [scanForVal]
  | cons av rest ih =>
    by_cases h : av = ev
    · simp [scanForVal, h]
    · have h' : ev ≠ av := fun he => h he.symm
      simp [scanForVal, h, h', ih]

/-- Sorting a value slice does not change membership. -/
theorem mem_sortStrings (a : String) (l : List String) : a ∈ sortStrings l ↔ a ∈ l :=
  (List.perm_insertionSort _ l).mem_iff

/-- An expected value missing from the actual slice contributes its
mismatch error, regardless of how often it occurs among the expected
values. -/
theorem valueErrs_mem_of (key : String) (avs : List String) (ev : String) :
    ∀ evs, ev ∈ evs → scanForVal ev avs = false →
      MErr.headerValueMismatch key ev avs ∈ valueErrs key evs avs := by
  intro evs
  induction evs with
  | nil => simp
  | cons e0 rest ih =>
    intro hmem hscan
    rcases List.mem_cons.mp hmem with he | he
    · subst he
      simp [valueErrs, hscan]
    · by_cases h0 : scanForVal e0 avs = true
      · simpa [valueErrs, h0] using ih he hscan
      · have h0' : scanForVal e0 avs = false := Bool.eq_false_iff.mpr h0
        simp [valueErrs, h0']
        exact Or.inr (ih he hscan)

/-- Every error the per-value loop produces is a mismatch error for some
expected value missing from the actual slice. -/
theorem valueErrs_mem_inv (key : String) (avs : List String) (e : MErr) :
    ∀ evs, e ∈ valueErrs key evs avs →
      ∃ ev, ev ∈ evs ∧ scanForVal ev avs = false ∧ e = .headerValueMismatch key ev avs := by
  intro evs
  induction evs with
  | nil => simp [valueErrs]
  | cons e0 rest ih =>
    intro hmem
    by_cases h0 : scanForVal e0 avs = true
    · rw [valueErrs, if_pos h0] at hmem
      obtain ⟨x, hx, hs, he⟩ := ih hmem
      exact ⟨x, List.mem_cons_of_mem _ hx, hs, he⟩
    · have h0' : scanForVal e0 avs = false := Bool.eq_false_iff.mpr h0
      rw [valueErrs, if_neg h0] at hmem
      rcases List.mem_cons.mp hmem with he | he
      · exact ⟨e0, List.mem_cons_self _ _, h0', he⟩
      · obtain ⟨x, hx, hs, hee⟩ := ih he
        exact ⟨x, List.mem_cons_of_mem _ hx, hs, hee⟩

/-- In-place sorting under one key does not affect lookups of a different
key. -/
theorem lookupVals_updateVals_ne (k k' : String) (vs : List String) (h : k ≠ k') :
    ∀ act : HMap, lookupVals k (updateVals k' vs act) = lookupVals k act := by
  intro act
  induction act with
  | nil => rfl
  | cons p rest ih =>
    have h' : k' ≠ k := fun hh => h hh.symm
    by_cases hp : p.1 = k'
    · have hk : p.1 ≠ k := by rw [hp]; exact h'
      simp [updateVals, hp, lookupVals, hk, h']
    · by_cases hk : p.1 = k <;> simp [updateVals, hp, lookupVals, hk, h, h', ih]

/-- In-place sorting preserves the key structure of a header map. -/
theorem updateVals_keys (k' : String) (vs : List String) :
    ∀ act : HMap, (updateVals k' vs act).map Prod.fst = act.map Prod.fst := by
  intro act
  induction act with
  | nil => rfl
  | cons p rest ih => by_cases hp : p.1 = k' <;> simp [updateVals, hp, ih]

/-- A lookup misses exactly when the key is absent. -/
theorem lookupVals_none_iff (k : String) :
    ∀ act : HMap, lookupVals k act = none ↔ k ∉ act.map Prod.fst := by
  intro act
  induction act with
  | nil => simp [lookupVals]
  | cons p rest ih =>
    by_cases hp : p.1 = k
    · simp [lookupVals, hp]
    · have hp' : k ≠ p.1 := fun hh => hp hh.symm
      simp [lookupVals, hp, hp', ih]

/-- Splitting a nodup key list at a cons cell. -/
theorem nodupKeys_cons {p : String × List String} {rest : HMap}
    (h : ((p :: rest).map Prod.fst).Nodup) :
    p.1 ∉ rest.map Prod.fst ∧ (rest.map Prod.fst).Nodup := by
  rw [List.map_cons] at h
  exact List.nodup_cons.mp h

/-- On maps with unique keys, membership determines the lookup result. -/
theorem lookupVals_nodup_mem (k : String) (vs : List String) :
    ∀ act : HMap, (act.map Prod.fst).Nodup → (k, vs) ∈ act → lookupVals k act = some vs := by
  intro act
  induction act with
  | nil => simp
  | cons p rest ih =>
    intro hnd hmem
    obtain ⟨hnotin, hndr⟩ := nodupKeys_cons hnd
    rcases List.mem_cons.mp hmem with he | he
    · rw [← he]; simp [lookupVals]
    · have hk : k ∈ rest.map Prod.fst := List.mem_map.mpr ⟨(k, vs), he, rfl⟩
      have hp : p.1 ≠ k := fun hh => hnotin (hh ▸ hk)
      simp [lookupVals, hp]
      exact ih hndr he

/-- On maps with unique keys, the in-place update rewrites exactly the
entry with the given key. -/
theorem updateVals_eq_map (k : String) (vs avs : List String) :
    ∀ act : HMap, (act.map Prod.fst).Nodup → lookupVals k act = some avs →
      updateVals k vs act = act.map (fun q => if q.1 = k then (k, vs) else q) := by
  intro act
  induction act with
  | nil => simp [updateVals]
  | cons p rest ih =>
    intro hnd hl
    obtain ⟨hnotin, hndr⟩ := nodupKeys_cons hnd
    by_cases hp : p.1 = k
    · have hkeyni : k ∉ rest.map Prod.fst := hp ▸ hnotin
      have hrestmap : rest.map (fun q => if q.1 = k then (k, vs) else q) = rest := by
        have hpt : ∀ q ∈ rest, (if q.1 = k then (k, vs) else q) = q := by
          intro q hq
          have hqk : q.1 ∈ rest.map Prod.fst := List.mem_map.mpr ⟨q, hq, rfl⟩
          have hqkne : q.1 ≠ k := fun hh => hkeyni (hh ▸ hqk)
          simp [hqkne]
        exact (List.map_congr_left hpt).trans (List.map_id rest)
      simp [updateVals, hp, hrestmap]
    · have hl' : lookupVals k rest = some avs := by simpa [lookupVals, hp] using hl
      simp [updateVals, hp, ih hndr hl']

/-- Every value-mismatch error `Headers` emits is attributed to one of
the expected header names. -/
theorem headers_mismatch_key_mem (k ev : String) (al : List String) :
    ∀ (exp act : HMap), MErr.headerValueMismatch k ev al ∈ (expect.Headers exp act).1 →
      k ∈ exp.map Prod.fst := by
  intro exp
  induction exp with
  | nil => intro act h; simp [expect.Headers] at h
  | cons p rest ih =>
    intro act h
    obtain ⟨k0, evs0⟩ := p
    cases hl : lookupVals k0 act with
    | none =>
      rw [expect.Headers, hl] at h
      rcases List.mem_cons.mp h with he | he
      · exact absurd he (by simp)
      · simp only [List.map_cons, List.mem_cons]
        exact Or.inr (ih act he)
    | some avs =>
      rw [expect.Headers, hl] at h
      simp only at h
      rcases List.mem_append.mp h with he | he
      · obtain ⟨x, _hx, _hs, heq⟩ := valueErrs_mem_inv k0 (sortStrings avs)
          (.headerValueMismatch k ev al) (sortStrings evs0) he
        simp only [MErr.headerValueMismatch.injEq] at heq
        simp [heq.1]
      · simp only [List.map_cons, List.mem_cons]
        exact Or.inr (ih _ he)

/-- Every missing-header error `Headers` emits is attributed to one of
the expected header names. -/
theorem headers_missing_key_mem (k : String) :
    ∀ (exp act : HMap), MErr.missingHeader k ∈ (expect.Headers exp act).1 →
      k ∈ exp.map Prod.fst := by
  intro exp
  induction exp with
  | nil => intro act h; simp [expect.Headers] at h
  | cons p rest ih =>
    intro act h
    obtain ⟨k0, evs0⟩ := p
    cases hl : lookupVals k0 act with
    | none =>
      rw [expect.Headers, hl] at h
      rcases List.mem_cons.mp h with he | he
      · simp only [MErr.missingHeader.injEq] at he
        simp [he]
      · simp only [List.map_cons, List.mem_cons]
        exact Or.inr (ih act he)
    | some avs =>
      rw [expect.Headers, hl] at h
      simp only at h
      rcases List.mem_append.mp h with he | he
      · obtain ⟨x, _hx, _hs, heq⟩ := valueErrs_mem_inv k0 (sortStrings avs)
          (.missingHeader k) (sortStrings evs0) he
        exact absurd heq (by simp)
      · simp only [List.map_cons, List.mem_cons]
        exact Or.inr (ih _ he)

/-- C2: for a header name present in both maps, the matcher checks each
expected value independently against the complete actual value slice
without consuming matched values: the mismatch error for an expected
value `ev` of that name is emitted exactly when `ev` does not occur in
the actual slice at all, no matter how many times `ev` occurs among the
expected values.  In particular expected values `["a", "a"]` against the
single actual value `["a"]` emit no error. -/
theorem c2_header_values_not_consumed :
    (∀ (exp act : HMap) (k : String) (evs avs : List String) (ev : String),
      (exp.map Prod.fst).Nodup → (k, evs) ∈ exp → lookupVals k act = some avs → ev ∈ evs →
      (MErr.headerValueMismatch k ev (sortStrings avs) ∈ (expect.Headers exp act).1 ↔ ev ∉ avs)) ∧
    (expect.Headers [("X", ["a", "a"])] [("X", ["a"])]).1 = [] := by
  constructor
  · intro exp
    induction exp with
    | nil => intro act k evs avs ev _ hmem; exact absurd hmem (by simp)
    | cons p rest ih =>
      intro act k evs avs ev hnd hmem hl hev
      obtain ⟨k0, evs0⟩ := p
      obtain ⟨hnotin, hndr⟩ := nodupKeys_cons hnd
      rcases List.mem_cons.mp hmem with he | he
      · -- our entry is the head: k = k0, evs = evs0
        injection he with hk hevs
        subst hk
        subst hevs
        simp only [expect.Headers, hl, List.mem_append]
        constructor
        · rintro (hin | hin)
          · obtain ⟨x, _hx, hs, heq⟩ := valueErrs_mem_inv k (sortStrings avs)
              _ (sortStrings evs) hin
            simp only [MErr.headerValueMismatch.injEq] at heq
            intro hcontra
            rw [heq.2.1] at hcontra
            exact (Bool.eq_false_iff.mp hs)
              ((scanForVal_true_iff x (sortStrings avs)).mpr ((mem_sortStrings x avs).mpr hcontra))
          · exact absurd (headers_mismatch_key_mem k ev (sortStrings avs) rest _ hin)
              (fun hcontra => hnotin hcontra)
        · intro hnin
          refine Or.inl (valueErrs_mem_of k (sortStrings avs) ev (sortStrings evs)
            ((mem_sortStrings ev evs).mpr hev) ?_)
          refine Bool.eq_false_iff.mpr (fun htrue => hnin ?_)
          exact (mem_sortStrings ev avs).mp ((scanForVal_true_iff ev (sortStrings avs)).mp htrue)
      · -- our entry is in the tail
        have hkrest : k ∈ rest.map Prod.fst := List.mem_map.mpr ⟨(k, evs), he, rfl⟩
        have hkne : k ≠ k0 := fun hh => hnotin (hh ▸ hkrest)
        cases hl0 : lookupVals k0 act with
        | none =>
          simp only [expect.Headers, hl0]
          rw [← ih act k evs avs ev hndr he hl hev]
          simp
        | some avs0 =>
          simp only [expect.Headers, hl0, List.mem_append]
          have hl' : lookupVals k (updateVals k0 (sortStrings avs0) act) = some avs := by
            rw [lookupVals_updateVals_ne k k0 (sortStrings avs0) hkne act]; exact hl
          rw [← ih (updateVals k0 (sortStrings avs0) act) k evs avs ev hndr he hl' hev]
          constructor
          · rintro (hin | hin)
            · obtain ⟨x, _hx, _hs, heq⟩ := valueErrs_mem_inv k0 (sortStrings avs0)
                _ (sortStrings evs0) hin
              simp only [MErr.headerValueMismatch.injEq] at heq
              exact absurd heq.1 hkne
            · exact hin
          · intro h
            exact Or.inr h
  · decide

/-- C2 witness: the general independence property instantiated at the
duplicate-expected-values example. -/
theorem c2_header_values_not_consumed_witness :
    MErr.headerValueMismatch "X" "a" (sortStrings ["a"]) ∈
      (expect.Headers [("X", ["a", "a"])] [("X", ["a"])]).1 ↔ "a" ∉ ["a"] :=
  c2_header_values_not_consumed.1 [("X", ["a", "a"])] [("X", ["a"])] "X" ["a", "a"] ["a"] "a"
    (by decide) (by decide) (by decide) (by decide)

/-- Sorting a slice in place never changes which keys are present. -/
theorem lookupVals_updateVals_none_iff (k k' : String) (vs : List String) (act : HMap) :
    lookupVals k (updateVals k' vs act) = none ↔ lookupVals k act = none := by
  rw [lookupVals_none_iff, lookupVals_none_iff, updateVals_keys]

/-- C3 counterexample: the claim says `Headers` leaves both maps,
including the string slices they hold, exactly as they were.  It does
not: `sort.Strings` reorders both value slices in place, observable
through the maps after the call. -/
theorem c3_headers_mutation_counterexample :
    (expect.Headers [("K", ["b", "a"])] [("K", ["b", "a"])]).2.1 ≠ [("K", ["b", "a"])] ∧
    (expect.Headers [("K", ["b", "a"])] [("K", ["b", "a"])]).2.2 ≠ [("K", ["b", "a"])] := by
  decide

/-- C3 amended: `Headers` mutates its inputs only by sorting value
slices in place: after the call, every expected entry whose name is found
in `actual` holds its sorted slice (entries whose name is missing are
untouched), and every actual entry whose name occurs in `expected` holds
its sorted slice (all others are untouched).  Consequently both maps are
left exactly as they were precisely when all the affected slices were
already sorted. -/
theorem c3_headers_sort_in_place_amended :
    ∀ (exp act : HMap), (exp.map Prod.fst).Nodup → (act.map Prod.fst).Nodup →
      (expect.Headers exp act).2.1
        = exp.map (fun p => if lookupVals p.1 act = none then p else (p.1, sortStrings p.2)) ∧
      (expect.Headers exp act).2.2
        = act.map (fun q => if lookupVals q.1 exp = none then q else (q.1, sortStrings q.2)) := by
  intro exp
  induction exp with
  | nil =>
    intro act _ _
    refine ⟨rfl, ?_⟩
    have hall : ∀ q ∈ act,
        (id q : String × List String)
          = (if lookupVals q.1 ([] : HMap) = none then q else (q.1, sortStrings q.2)) := by
      intro q _
      simp [lookupVals]
    calc (expect.Headers [] act).2.2 = act := rfl
      _ = act.map id := (List.map_id act).symm
      _ = act.map (fun q => if lookupVals q.1 ([] : HMap) = none then q else (q.1, sortStrings q.2)) :=
          List.map_congr_left hall
  | cons p rest ih =>
    intro act hnde hnda
    obtain ⟨k0, evs0⟩ := p
    obtain ⟨hnotin, hndr⟩ := nodupKeys_cons hnde
    cases hl0 : lookupVals k0 act with
    | none =>
      obtain ⟨ihe, iha⟩ := ih act hndr hnda
      constructor
      · simp only [expect.Headers, hl0]
        rw [ihe, List.map_cons, if_pos hl0]
      · simp only [expect.Headers, hl0]
        rw [iha]
        refine List.map_congr_left (fun q hq => ?_)
        have hq1 : q.1 ∈ act.map Prod.fst := List.mem_map.mpr ⟨q, hq, rfl⟩
        have hk0ne : k0 ≠ q.1 := by
          intro hh
          rw [lookupVals_none_iff] at hl0
          exact hl0 (hh ▸ hq1)
        simp [lookupVals, hk0ne]
    | some avs0 =>
      have hupd : updateVals k0 (sortStrings avs0) act
          = act.map (fun q => if q.1 = k0 then (k0, sortStrings avs0) else q) :=
        updateVals_eq_map k0 (sortStrings avs0) avs0 act hnda hl0
      have hndupd : ((updateVals k0 (sortStrings avs0) act).map Prod.fst).Nodup := by
        rw [updateVals_keys]; exact hnda
      obtain ⟨ihe, iha⟩ := ih (updateVals k0 (sortStrings avs0) act) hndr hndupd
      constructor
      · simp only [expect.Headers, hl0]
        rw [ihe, List.map_cons, if_neg (by simp [hl0])]
        congr 1
        refine List.map_congr_left (fun q _hq => ?_)
        exact if_congr (lookupVals_updateVals_none_iff q.1 k0 (sortStrings avs0) act) rfl rfl
      · simp only [expect.Headers, hl0]
        rw [iha, hupd, List.map_map]
        refine List.map_congr_left (fun q hq => ?_)
        by_cases hqk : q.1 = k0
        · have hq2 : q.2 = avs0 := by
            have hlq : lookupVals q.1 act = some q.2 :=
              lookupVals_nodup_mem q.1 q.2 act hnda (by rw [Prod.mk.eta]; exact hq)
            rw [hqk, hl0] at hlq
            exact (Option.some.injEq .. ▸ hlq).symm
          have hk0rest : lookupVals k0 rest = none := (lookupVals_none_iff k0 rest).mpr hnotin
          simp [Function.comp, hqk, hk0rest, lookupVals, hq2]
        · have hne : k0 ≠ q.1 := fun hh => hqk hh.symm
          simp [Function.comp, hqk, lookupVals, hne]

/-- C3 witness: the sorted post-states at concrete maps with unsorted
slices, an expected name missing from actual, and an actual name not
expected. -/
theorem c3_headers_sort_in_place_amended_witness :
    (expect.Headers [("A", ["b", "a"]), ("M", ["z", "y"])] [("A", ["d", "c"]), ("N", ["q", "p"])]).2.1
      = [("A", ["b", "a"]), ("M", ["z", "y"])].map
          (fun p => if lookupVals p.1 [("A", ["d", "c"]), ("N", ["q", "p"])] = none
            then p else (p.1, sortStrings p.2)) ∧
    (expect.Headers [("A", ["b", "a"]), ("M", ["z", "y"])] [("A", ["d", "c"]), ("N", ["q", "p"])]).2.2
      = [("A", ["d", "c"]), ("N", ["q", "p"])].map
          (fun q => if lookupVals q.1 [("A", ["b", "a"]), ("M", ["z", "y"])] = none
            then q else (q.1, sortStrings q.2)) :=
  c3_headers_sort_in_place_amended [("A", ["b", "a"]), ("M", ["z", "y"])]
    [("A", ["d", "c"]), ("N", ["q", "p"])] (by decide) (by decide)

/-- C4 counterexample: the claim says the header lookup is
case-insensitive, so an actual map containing the same name differing
only in letter case yields no MissingHeader error.  The code indexes the
map with the exact name (`actual[key]`), so expected `"X-Foo"` against
actual `"x-foo"` — the same name up to letter case — DOES emit the
missing-header error. -/
theorem c4_header_lookup_counterexample :
    (expect.Headers [("X-Foo", ["a"])] [("x-foo", ["a"])]).1
      = [MErr.missingHeader "X-Foo"] := by decide

/-- C4 amended: the header-name lookup is exact (case-sensitive): an
expected name is reported missing precisely when no actual entry carries
the byte-identical name — an actual name differing only in letter case
does not prevent the error. -/
theorem c4_header_lookup_case_sensitive_amended :
    ∀ (exp act : HMap) (k : String) (evs : List String),
      (exp.map Prod.fst).Nodup → (k, evs) ∈ exp →
      (MErr.missingHeader k ∈ (expect.Headers exp act).1 ↔ lookupVals k act = none) := by
  intro exp
  induction exp with
  | nil => intro act k evs _ hmem; exact absurd hmem (by simp)
  | cons p rest ih =>
    intro act k evs hnd hmem
    obtain ⟨k0, evs0⟩ := p
    obtain ⟨hnotin, hndr⟩ := nodupKeys_cons hnd
    rcases List.mem_cons.mp hmem with he | he
    · injection he with hk hevs
      subst hk
      subst hevs
      cases hl0 : lookupVals k act with
      | none =>
        simp only [expect.Headers, hl0, List.mem_cons]
        simp
      | some avs0 =>
        simp only [expect.Headers, hl0, List.mem_append]
        constructor
        · rintro (hin | hin)
          · obtain ⟨x, _hx, _hs, heq⟩ := valueErrs_mem_inv k (sortStrings avs0)
              _ (sortStrings evs) hin
            exact absurd heq (by simp)
          · exact absurd (headers_missing_key_mem k rest _ hin) hnotin
        · intro h
          exact absurd h (by simp)
    · have hkrest : k ∈ rest.map Prod.fst := List.mem_map.mpr ⟨(k, evs), he, rfl⟩
      have hkne : k ≠ k0 := fun hh => hnotin (hh ▸ hkrest)
      cases hl0 : lookupVals k0 act with
      | none =>
        simp only [expect.Headers, hl0, List.mem_cons]
        have hne : MErr.missingHeader k ≠ MErr.missingHeader k0 := by simp [hkne]
        rw [← ih act k evs hndr he]
        simp [hne]
      | some avs0 =>
        simp only [expect.Headers, hl0, List.mem_append]
        have hiff := ih (updateVals k0 (sortStrings avs0) act) k evs hndr he
        rw [lookupVals_updateVals_ne k k0 (sortStrings avs0) hkne act] at hiff
        rw [← hiff]
        constructor
        · rintro (hin | hin)
          · obtain ⟨x, _hx, _hs, heq⟩ := valueErrs_mem_inv k0 (sortStrings avs0)
              _ (sortStrings evs0) hin
            exact absurd heq (by simp)
          · exact hin
        · exact fun h => Or.inr h

/-- C4 witness: the amended property at the case-variant example. -/
theorem c4_header_lookup_case_sensitive_amended_witness :
    MErr.missingHeader "X-Foo" ∈ (expect.Headers [("X-Foo", ["a"])] [("x-foo", ["a"])]).1
      ↔ lookupVals "X-Foo" [("x-foo", ["a"])] = none :=
  c4_header_lookup_case_sensitive_amended [("X-Foo", ["a"])] [("x-foo", ["a"])] "X-Foo" ["a"]
    (by decide) (by decide)
